import Mathlib

/-
Shallow embedding of the core logic of the options-extrinsic-analyzer
application (src/src/App.jsx).  Numeric values from the feed are modelled as
rationals; fields the feed may omit (JavaScript `undefined`/`null`) are
modelled with `Option`.  The ambient clock `Date.now() / 1000` is threaded as
an explicit `now` parameter, and the network is threaded as an explicit
oracle, so every function here is pure and executable.
-/

set_option maxHeartbeats 1000000

namespace OptionsApp

/-- Raw call-option contract as delivered by the upstream feed. Every field
the feed may omit is wrapped in `Option`, so absence is representable
distinctly from zero. -/
structure RawOptionContract where
  strike : ℚ
  bid : Option ℚ
  ask : Option ℚ
  lastPrice : Option ℚ
  volume : Option ℤ
  openInterest : Option ℤ
  impliedVolatility : Option ℚ
  delta : Option ℚ
  gamma : Option ℚ
  theta : Option ℚ
  vega : Option ℚ
  rho : Option ℚ
  inTheMoney : Option Bool
  contractSymbol : Option String
  deriving DecidableEq

/-- Analyzed option record built by the map body of `analyzeCallOptions`:
the raw fields coerced the way the code coerces them, plus the derived
fields. -/
structure AnalyzedOption where
  strike : ℚ
  mid : ℚ
  bid : ℚ
  ask : ℚ
  last : ℚ
  volume : ℤ
  openInterest : ℤ
  impliedVol : ℚ
  intrinsic : ℚ
  extrinsic : ℚ
  extrinsicPerDTE : ℚ
  efficiencyScore : Option ℚ
  fallbackScore : ℚ
  annualizedYield : ℚ
  delta : Option ℚ
  gamma : Option ℚ
  theta : Option ℚ
  vega : Option ℚ
  rho : Option ℚ
  dte : ℤ
  moneyness : String
  inTheMoney : Bool
  contractSymbol : String
  deriving DecidableEq

/-- Ranked option: an analyzed option together with the 1-based rank the
ranker assigned to it (the code produces `{...o, rank: i + 1}`). -/
structure RankedOption where
  opt : AnalyzedOption
  rank : ℕ
  deriving DecidableEq

/-- Translation of the JavaScript string fallback `s || d`: an absent or
empty (falsy) string falls back to `d`. -/
def strOr (o : Option String) (d : String) : String :=
  match o with
  | some s => if s = "" then d else s
  | none => d

/-- Days until expiry, translating
`Math.max(1, Math.ceil((expiryTs - Date.now() / 1000) / 86400))`; the current
time in seconds is passed as the explicit parameter `now`. -/
def daysUntilExpiry (expiryTs now : ℚ) : ℤ :=
  max 1 ⌈(expiryTs - now) / 86400⌉

/-- Stable ascending sort by strike, translating
`[...calls].sort((a, b) => a.strike - b.strike)` (JavaScript sort is stable,
as is insertion sort). -/
def sortByStrike (calls : List RawOptionContract) : List RawOptionContract :=
  List.insertionSort (fun a b => a.strike ≤ b.strike) calls

/-- Accumulator loop of the `sorted.forEach` scan that locates the
at-the-money index: `i` is the index of the head of the remaining list,
`atmIdx` and `minDist` are the best index and distance seen so far, with
`none` modelling the initial `Infinity`, which every finite distance beats. -/
def findATMAux (spotPrice : ℚ) :
    List RawOptionContract → ℕ → ℕ → Option ℚ → ℕ × Option ℚ
  | [], _, atmIdx, minDist => (atmIdx, minDist)
  | c :: rest, i, atmIdx, minDist =>
    let dist := |c.strike - spotPrice|
    match minDist with
    | none => findATMAux spotPrice rest (i + 1) i (some dist)
    | some m =>
      if dist < m then findATMAux spotPrice rest (i + 1) i (some dist)
      else findATMAux spotPrice rest (i + 1) atmIdx minDist

/-- At-the-money index of a (sorted) contract list: index of the first
contract whose strike has minimal absolute distance to the spot price, or 0
for an empty list (the loop's initial value). -/
def findATMIdx (sorted : List RawOptionContract) (spotPrice : ℚ) : ℕ :=
  (findATMAux spotPrice sorted 0 0 none).1

/-- Strike increment estimated from the neighborhood
`sorted.slice(Math.max(0, atmIdx - 1), Math.min(sorted.length, atmIdx + 2))`:
when `sorted` has more than one element and the neighborhood at least two,
the difference of the neighborhood's first two strikes, else 1.  Natural
subtraction `atmIdx - 1` equals `Math.max(0, atmIdx - 1)`. -/
def strikeIncrement (sorted : List RawOptionContract) (atmIdx : ℕ) : ℚ :=
  if sorted.length > 1 then
    match (sorted.drop (atmIdx - 1)).take (min sorted.length (atmIdx + 2) - (atmIdx - 1)) with
    | a :: b :: _ => b.strike - a.strike
    | _ => 1
  else 1

/-- Per-contract derivation performed in the `selected.map` body of
`analyzeCallOptions`: mid price from bid/ask with last-price fallback,
intrinsic and extrinsic value, Greeks passed through as optional values,
efficiency and fallback scores, annualized yield, and the moneyness label.
The numeric defaults `c.f || 0` are `Option.getD 0` (a present 0 is falsy in
JavaScript but the fallback is 0 as well, so the two coincide). -/
def deriveOption (spotPrice : ℚ) (dte : ℤ) (increment : ℚ)
    (c : RawOptionContract) : AnalyzedOption :=
  let strike := c.strike
  let bid := c.bid.getD 0
  let ask := c.ask.getD 0
  let mid := if 0 < bid ∧ 0 < ask then (bid + ask) / 2 else c.lastPrice.getD 0
  let intrinsic := max 0 (spotPrice - strike)
  let extrinsic := max 0 (mid - intrinsic)
  let extrinsicPerDTE := extrinsic / (dte : ℚ)
  let absDelta := c.delta.map (fun d => |d|)
  let efficiencyScore :=
    match absDelta with
    | some a => if a > 0.01 then some (extrinsicPerDTE / a) else none
    | none => none
  let isITM := strike < spotPrice
  let isATM := |strike - spotPrice| ≤ increment * 0.6
  { strike := strike
    mid := mid
    bid := bid
    ask := ask
    last := c.lastPrice.getD 0
    volume := c.volume.getD 0
    openInterest := c.openInterest.getD 0
    impliedVol := c.impliedVolatility.getD 0
    intrinsic := intrinsic
    extrinsic := extrinsic
    extrinsicPerDTE := extrinsicPerDTE
    efficiencyScore := efficiencyScore
    fallbackScore := extrinsicPerDTE
    annualizedYield := (extrinsic / strike) * (365 / (dte : ℚ)) * 100
    delta := c.delta
    gamma := c.gamma
    theta := c.theta
    vega := c.vega
    rho := c.rho
    dte := dte
    moneyness := if isATM then "ATM" else if isITM then "ITM" else "OTM"
    inTheMoney := c.inTheMoney.getD false
    contractSymbol := c.contractSymbol.getD "" }

/-- Option analyzer `analyzeCallOptions(calls, spotPrice, expiryTs, numStrikes)`:
sorts by strike, finds the at-the-money index, selects the window of
`numStrikes` strikes on each side (natural subtraction `atmIdx - numStrikes`
equals `Math.max(0, atmIdx - numStrikes)`, and `take` of the index difference
is `slice startIdx endIdx`), and derives the per-contract fields. -/
def analyzeCallOptions (calls : List RawOptionContract)
    (spotPrice expiryTs now : ℚ) (numStrikes : ℕ) : List AnalyzedOption :=
  let dte := daysUntilExpiry expiryTs now
  let sorted := sortByStrike calls
  let atmIdx := findATMIdx sorted spotPrice
  let increment := strikeIncrement sorted atmIdx
  let startIdx := atmIdx - numStrikes
  let endIdx := min sorted.length (atmIdx + numStrikes + 1)
  let selected := (sorted.drop startIdx).take (endIdx - startIdx)
  selected.map (deriveOption spotPrice dte increment)

/-- Boolean test `o.efficiencyScore != null && o.efficiencyScore > 0` used to
split the rankable set. -/
def scorePos (o : AnalyzedOption) : Bool :=
  match o.efficiencyScore with
  | some s => decide (0 < s)
  | none => false

/-- Stable descending sort by efficiency score, translating
`withGreeks.sort((a, b) => b.efficiencyScore - a.efficiencyScore)` (a null
score coerces to 0 in the JavaScript subtraction, hence `Option.getD 0`). -/
def sortByEffDesc (l : List AnalyzedOption) : List AnalyzedOption :=
  List.insertionSort (fun a b => b.efficiencyScore.getD 0 ≤ a.efficiencyScore.getD 0) l

/-- Stable descending sort by fallback score, translating
`noGreeks.sort((a, b) => b.fallbackScore - a.fallbackScore)`. -/
def sortByFallbackDesc (l : List AnalyzedOption) : List AnalyzedOption :=
  List.insertionSort (fun a b => b.fallbackScore ≤ a.fallbackScore) l

/-- Rank assignment `.map((o, i) => ({ ...o, rank: i + 1 }))`, generalized
over the starting index `i`. -/
def assignRanks : List AnalyzedOption → ℕ → List RankedOption
  | [], _ => []
  | o :: rest, i => ⟨o, i + 1⟩ :: assignRanks rest (i + 1)

/-- Ranker `rankByEfficiency(options)`: filters to the rankable set
(`extrinsic > 0.01`); when any option in the whole input has a non-null
efficiency score, splits the rankable set into scored (`scorePos`) and
unscored, sorts each descending by its score, concatenates and ranks;
otherwise sorts the whole rankable set descending by fallback score and
ranks. -/
def rankByEfficiency (options : List AnalyzedOption) : List RankedOption :=
  let hasGreeks := options.any (fun o => o.efficiencyScore.isSome)
  let rankable := options.filter (fun o => decide (o.extrinsic > 0.01))
  if hasGreeks then
    let withGreeks := rankable.filter scorePos
    let noGreeks := rankable.filter (fun o => !scorePos o)
    assignRanks (sortByEffDesc withGreeks ++ sortByFallbackDesc noGreeks) 0
  else
    assignRanks (sortByFallbackDesc rankable) 0

/-- Expiration matcher `findClosestExpiry(available, targetDateStr)`: the
target anchor (16:00 local time of the chosen date, in seconds) is passed
as the already-converted rational `target`; the reduce keeps the incumbent
unless a strictly closer timestamp appears.  An empty `available` yields
`undefined` in JavaScript, modelled as `none`. -/
def findClosestExpiry (available : List ℚ) (target : ℚ) : Option ℚ :=
  match available with
  | [] => none
  | a0 :: _ =>
    some (available.foldl
      (fun best ts => if |ts - target| < |best - target| then ts else best) a0)

/-- Outcome of one relay attempt, as the code distinguishes them: a parsed
JSON body, a non-success HTTP status, a body shorter than 30 bytes, a body
that fails to parse as JSON, or a thrown transport error (the only case that
updates `lastErr`). -/
inductive AttemptResult (α : Type) where
  | ok (data : α)
  | badStatus
  | shortBody
  | badJson
  | transportError (msg : String)
  deriving DecidableEq

/-- Soft failure test: every outcome other than a success is retried. -/
def isSoftFailB {α : Type} : AttemptResult α → Bool
  | AttemptResult.ok _ => false
  | _ => true

/-- Number of relay builders in `proxyBuilders`. -/
def proxyCount : ℕ := 5

/-- Inner loop of `fetchWithProxies` over the remaining flat attempt numbers:
a success returns its data immediately, the three soft-failure kinds move on
unchanged, a transport error records its message in `lastErr` and moves on,
and exhaustion produces the terminal error carrying the label. -/
def fetchAux {α : Type} (net : ℕ → AttemptResult α) (label : String) :
    List ℕ → Option String → Except String α
  | [], lastErr =>
    Except.error (label ++ " failed: " ++ lastErr.getD "All proxies failed")
  | n :: rest, lastErr =>
    match net n with
    | AttemptResult.ok d => Except.ok d
    | AttemptResult.badStatus => fetchAux net label rest lastErr
    | AttemptResult.shortBody => fetchAux net label rest lastErr
    | AttemptResult.badJson => fetchAux net label rest lastErr
    | AttemptResult.transportError m => fetchAux net label rest (some m)

/-- Relay fetch `fetchWithProxies(url, onStatus, label, maxAttempts)`: the
nested loops (`maxAttempts` rounds over `proxyCount` relays, rotated by the
round index) make `maxAttempts * proxyCount` attempts in a fixed order; `net`
is the network oracle indexed by the flat attempt number (attempt `n` uses
relay builder `(n / proxyCount + n % proxyCount) % proxyCount`).  The status
callback and the inter-round sleeps have no effect on the result and are not
modelled. -/
def fetchWithProxies {α : Type} (net : ℕ → AttemptResult α) (label : String)
    (maxAttempts : ℕ) : Except String α :=
  fetchAux net label (List.range (maxAttempts * proxyCount)) none

/-- Shape of `data.chart.result[0]` as `fetchSpotPrice` consumes it:
`meta.regularMarketPrice`, `meta.shortName`, `meta.symbol`, and the two
candidate close series `indicators.adjclose[0].adjclose` and
`indicators.quote[0].close` (each a list of number-or-null). -/
structure ChartResult where
  regularMarketPrice : Option ℚ
  shortName : Option String
  symbol : Option String
  adjclose : Option (List (Option ℚ))
  quoteClose : Option (List (Option ℚ))
  deriving DecidableEq

/-- Series chosen by
`result.indicators?.adjclose?.[0]?.adjclose || result.indicators?.quote?.[0]?.close`:
an array, even an empty one, is truthy, so a present adjclose series always
wins. -/
def closesOf (r : ChartResult) : Option (List (Option ℚ)) :=
  match r.adjclose with
  | some l => some l
  | none => r.quoteClose

/-- Non-null entries of the chosen close series (empty when no series is
present). -/
def validCloses (r : ChartResult) : List ℚ :=
  ((closesOf r).getD []).filterMap id

/-- Fallback branch of `fetchSpotPrice`: the last non-null value of the
chosen close series, or the terminal extraction error. -/
def spotFallback (result : ChartResult) (ticker : String) :
    Except String (ℚ × String) :=
  match closesOf result with
  | some closes =>
    match (closes.filterMap id).getLast? with
    | some v => Except.ok (v, ticker)
    | none => Except.error ("Could not extract price for " ++ ticker)
  | none => Except.error ("Could not extract price for " ++ ticker)

/-- Spot-price extraction `fetchSpotPrice(ticker)`, applied to the already
fetched and parsed response: `data` is `chart.result[0]` when present.  A
truthy `meta.regularMarketPrice` (present and non-zero) is returned with the
display name `meta.shortName || meta.symbol || ticker`; otherwise the close
series fallback runs. -/
def fetchSpotPrice (data : Option ChartResult) (ticker : String) :
    Except String (ℚ × String) :=
  match data with
  | none => Except.error ("No data returned for " ++ ticker)
  | some result =>
    match result.regularMarketPrice with
    | some price =>
      if price ≠ 0 then
        Except.ok (price, strOr result.shortName (strOr result.symbol ticker))
      else spotFallback result ticker
    | none => spotFallback result ticker

/-- Specification predicate for claim C6: `i` is the first index of the list
whose strike has minimal absolute distance to the spot price. -/
def IsFirstATM (l : List RawOptionContract) (spotPrice : ℚ) (i : ℕ) : Prop :=
  ∃ hi : i < l.length,
    (∀ j (hj : j < l.length),
      |(l.get ⟨i, hi⟩).strike - spotPrice| ≤ |(l.get ⟨j, hj⟩).strike - spotPrice|) ∧
    (∀ j (hj : j < l.length), j < i →
      |(l.get ⟨i, hi⟩).strike - spotPrice| < |(l.get ⟨j, hj⟩).strike - spotPrice|)

/-- Sample contract for concrete witnesses: the spec scenario with spot 150,
strike 160, bid 2.40, ask 2.60, no last price, and no Greeks. -/
def cex : RawOptionContract :=
  { strike := 160, bid := some (12/5), ask := some (13/5), lastPrice := none,
    volume := none, openInterest := none, impliedVolatility := none,
    delta := none, gamma := none, theta := none, vega := none, rho := none,
    inTheMoney := none, contractSymbol := none }

/-- Sample contract equal to `cex` except that the feed reports an implied
volatility of exactly zero (rather than omitting the field). -/
def cexIV0 : RawOptionContract := { cex with impliedVolatility := some 0 }

/-- Sample contract with Greeks present, for the pass-through witness. -/
def cgx : RawOptionContract := { cex with delta := some (1/2), gamma := some (1/25) }

/-- Sample contract with strike 100 (spec scenario for the window). -/
def c100 : RawOptionContract := { cex with strike := 100 }

/-- Sample contract with strike 105 (spec scenario for the window). -/
def c105 : RawOptionContract := { cex with strike := 105 }

/-- Sample contract with strike 110 (spec scenario for the window). -/
def c110 : RawOptionContract := { cex with strike := 110 }

/-- Sample analyzed option with a positive efficiency score. -/
def sA : AnalyzedOption :=
  { strike := 100, mid := 2, bid := 1, ask := 3, last := 2, volume := 0, openInterest := 0,
    impliedVol := 0, intrinsic := 0, extrinsic := 2, extrinsicPerDTE := 1,
    efficiencyScore := some 2, fallbackScore := 1, annualizedYield := 0,
    delta := some (1/2), gamma := none, theta := none, vega := none, rho := none,
    dte := 2, moneyness := "OTM", inTheMoney := false, contractSymbol := "A" }

/-- Sample analyzed option without an efficiency score (no delta reported). -/
def sB : AnalyzedOption := { sA with efficiencyScore := none, delta := none, contractSymbol := "B" }

/-- Sample network oracle whose first attempt soft-fails and whose second
succeeds. -/
def netOneFail : ℕ → AttemptResult ℕ := fun n =>
  if n = 0 then AttemptResult.badStatus else AttemptResult.ok 42

/-- Sample network oracle that soft-fails on every attempt. -/
def netAllFail : ℕ → AttemptResult ℕ := fun _ => AttemptResult.badJson

/-- Sample chart response whose metadata price is exactly 0 and whose close
series holds one non-null value. -/
def chartEx : ChartResult :=
  { regularMarketPrice := some 0, shortName := some "Apple Inc.", symbol := some "AAPL",
    adjclose := some [none, some 123, none], quoteClose := none }

/- ═══════════ Helper lemmas ═══════════ -/

/-- Every element of the analyzer's output is the derivation of some input
contract (the sort permutes the input and the window slice selects a
sublist). -/
theorem mem_analyzeCallOptions {calls : List RawOptionContract}
    {spot e now : ℚ} {h : ℕ} {a : AnalyzedOption}
    (ha : a ∈ analyzeCallOptions calls spot e now h) :
    ∃ c ∈ calls,
      a = deriveOption spot (daysUntilExpiry e now)
        (strikeIncrement (sortByStrike calls) (findATMIdx (sortByStrike calls) spot)) c := by
  unfold analyzeCallOptions at ha
  simp only [List.mem_map] at ha
  obtain ⟨c, hc, rfl⟩ := ha
  have h1 : c ∈ sortByStrike calls :=
    List.drop_subset _ _ (List.take_subset _ _ hc)
  exact ⟨c, (List.perm_insertionSort _ calls).mem_iff.1 h1, rfl⟩

/-- Ranks assigned by `assignRanks` starting at index `i` are the contiguous
range `i+1, …, i+length`. -/
theorem assignRanks_map_rank :
    ∀ (l : List AnalyzedOption) (i : ℕ),
      (assignRanks l i).map RankedOption.rank = List.range' (i + 1) l.length
  | [], _ => rfl
  | o :: rest, i => by
    simp only [assignRanks, List.map_cons, assignRanks_map_rank rest (i + 1),
      List.length_cons, List.range'_succ]

/-- Dropping the ranks recovers the input list. -/
theorem assignRanks_map_opt :
    ∀ (l : List AnalyzedOption) (i : ℕ),
      (assignRanks l i).map RankedOption.opt = l
  | [], _ => rfl
  | o :: rest, i => by
    simp only [assignRanks, List.map_cons, assignRanks_map_opt rest (i + 1)]

/-- Rank assignment preserves length. -/
theorem assignRanks_length (l : List AnalyzedOption) (i : ℕ) :
    (assignRanks l i).length = l.length := by
  have := congrArg List.length (assignRanks_map_opt l i)
  rwa [List.length_map] at this

/-- Invariant of the at-the-money scan once the minimum is finite: the final
minimum is no larger than the incumbent and than every remaining distance,
and the final index is either the incumbent or points at the first remaining
element that strictly improves on everything before it. -/
theorem findATMAux_spec (spot : ℚ) (rest : List RawOptionContract) :
    ∀ (i atm : ℕ) (m : ℚ), atm < i →
    ∃ r m', findATMAux spot rest i atm (some m) = (r, some m') ∧
      m' ≤ m ∧
      (∀ k (hk : k < rest.length), m' ≤ |(rest.get ⟨k, hk⟩).strike - spot|) ∧
      ((r = atm ∧ m' = m) ∨
        ∃ k, ∃ hk : k < rest.length,
          r = i + k ∧ m' = |(rest.get ⟨k, hk⟩).strike - spot| ∧ m' < m ∧
          ∀ j (hj : j < rest.length), j < k → m' < |(rest.get ⟨j, hj⟩).strike - spot|) := by
  induction rest with
  | nil =>
    intro i atm m _
    exact ⟨atm, m, rfl, le_refl _, by simp, Or.inl ⟨rfl, rfl⟩⟩
  | cons c rest ih =>
    intro i atm m hlt
    by_cases hd : |c.strike - spot| < m
    · obtain ⟨r, m', heq, hle, hmin, hdisj⟩ := ih (i + 1) i |c.strike - spot| (Nat.lt_succ_self i)
      refine ⟨r, m', ?_, le_of_lt (lt_of_le_of_lt hle hd), ?_, ?_⟩
      · show findATMAux spot (c :: rest) i atm (some m) = (r, some m')
        simp only [findATMAux, if_pos hd]
        exact heq
      · intro k hk
        cases k with
        | zero => simpa using hle
        | succ k' =>
          have := hmin k' (by simpa using hk)
          simpa using this
      · right
        rcases hdisj with ⟨hr, hm⟩ | ⟨k, hk, hr, hmeq, hmlt, hfirst⟩
        · refine ⟨0, by simp, by omega, by simpa using hm, by simpa [hm] using hd, ?_⟩
          intro j hj hj0
          omega
        · refine ⟨k + 1, by simpa using hk, by omega, by simpa using hmeq,
            lt_trans hmlt hd, ?_⟩
          intro j hj hjk
          cases j with
          | zero => simpa using hmlt
          | succ j' =>
            have := hfirst j' (by simpa using hj) (by omega)
            simpa using this
    · obtain ⟨r, m', heq, hle, hmin, hdisj⟩ := ih (i + 1) atm m (by omega)
      push_neg at hd
      refine ⟨r, m', ?_, hle, ?_, ?_⟩
      · show findATMAux spot (c :: rest) i atm (some m) = (r, some m')
        simp only [findATMAux, if_neg (not_lt.2 hd)]
        exact heq
      · intro k hk
        cases k with
        | zero => simpa using le_trans hle hd
        | succ k' =>
          have := hmin k' (by simpa using hk)
          simpa using this
      · rcases hdisj with ⟨hr, hm⟩ | ⟨k, hk, hr, hmeq, hmlt, hfirst⟩
        · exact Or.inl ⟨hr, hm⟩
        · right
          refine ⟨k + 1, by simpa using hk, by omega, by simpa using hmeq, hmlt, ?_⟩
          intro j hj hjk
          cases j with
          | zero => simpa using lt_of_lt_of_le hmlt hd
          | succ j' =>
            have := hfirst j' (by simpa using hj) (by omega)
            simpa using this

/-- On a non-empty list the scan returns the first index of minimal strike
distance. -/
theorem findATMIdx_isFirstATM (l : List RawOptionContract) (spot : ℚ) (hne : l ≠ []) :
    IsFirstATM l spot (findATMIdx l spot) := by
  match l, hne with
  | c :: rest, _ =>
    obtain ⟨r, m', heq, hle, hmin, hdisj⟩ :=
      findATMAux_spec spot rest 1 0 |c.strike - spot| Nat.zero_lt_one
    have hidx : findATMIdx (c :: rest) spot = r := by
      simp only [findATMIdx, findATMAux]
      rw [heq]
    rw [hidx]
    rcases hdisj with ⟨hr, hm⟩ | ⟨k, hk, hr, hmeq, hmlt, hfirst⟩
    · subst hr
      refine ⟨by simp, ?_, ?_⟩
      · intro j hj
        cases j with
        | zero => simp
        | succ j' =>
          have := hmin j' (by simpa using hj)
          simpa [hm] using this
      · intro j hj hj0
        omega
    · have hr' : r = k + 1 := by omega
      subst hr'
      refine ⟨by simpa using hk, ?_, ?_⟩
      · intro j hj
        cases j with
        | zero =>
          have : m' ≤ |c.strike - spot| := le_of_lt hmlt
          simpa [hmeq] using (hmeq ▸ this)
        | succ j' =>
          have := hmin j' (by simpa using hj)
          simpa [hmeq] using (hmeq ▸ this)
      · intro j hj hjk
        cases j with
        | zero => simpa [hmeq] using (hmeq ▸ hmlt)
        | succ j' =>
          have := hfirst j' (by simpa using hj) (by omega)
          simpa [hmeq] using (hmeq ▸ this)

/-- Invariant of the closest-expiry reduce: the final value is at least as
close to the target as the incumbent and as every remaining element, and it
is either the incumbent or the first remaining element that strictly
improves on everything before it. -/
theorem foldClosest_spec (t : ℚ) (rest : List ℚ) :
    ∀ best : ℚ,
      |rest.foldl (fun b ts => if |ts - t| < |b - t| then ts else b) best - t| ≤ |best - t| ∧
      (∀ x ∈ rest,
        |rest.foldl (fun b ts => if |ts - t| < |b - t| then ts else b) best - t| ≤ |x - t|) ∧
      (rest.foldl (fun b ts => if |ts - t| < |b - t| then ts else b) best = best ∨
        ∃ k, ∃ hk : k < rest.length,
          rest.foldl (fun b ts => if |ts - t| < |b - t| then ts else b) best = rest.get ⟨k, hk⟩ ∧
          |rest.foldl (fun b ts => if |ts - t| < |b - t| then ts else b) best - t| < |best - t| ∧
          ∀ j (hj : j < rest.length), j < k →
            |rest.foldl (fun b ts => if |ts - t| < |b - t| then ts else b) best - t|
              < |rest.get ⟨j, hj⟩ - t|) := by
  induction rest with
  | nil =>
    intro best
    exact ⟨le_refl _, by simp, Or.inl rfl⟩
  | cons ts rest ih =>
    intro best
    by_cases hd : |ts - t| < |best - t|
    · obtain ⟨h1, h2, h3⟩ := ih ts
      have hfold : (ts :: rest).foldl (fun b x => if |x - t| < |b - t| then x else b) best
          = rest.foldl (fun b x => if |x - t| < |b - t| then x else b) ts := by
        simp [List.foldl_cons, if_pos hd]
      rw [hfold]
      refine ⟨le_of_lt (lt_of_le_of_lt h1 hd), ?_, ?_⟩
      · intro x hx
        rcases List.mem_cons.1 hx with rfl | hx'
        · exact h1
        · exact h2 x hx'
      · right
        rcases h3 with heq | ⟨k, hk, heq, hlt, hfirst⟩
        · exact ⟨0, by simp, by simpa using heq, by rw [heq]; exact hd, fun j hj hj0 => by omega⟩
        · refine ⟨k + 1, by simpa using hk, by simpa using heq, lt_trans hlt hd, ?_⟩
          intro j hj hjk
          cases j with
          | zero => simpa using hlt
          | succ j' =>
            have := hfirst j' (by simpa using hj) (by omega)
            simpa using this
    · obtain ⟨h1, h2, h3⟩ := ih best
      push_neg at hd
      have hfold : (ts :: rest).foldl (fun b x => if |x - t| < |b - t| then x else b) best
          = rest.foldl (fun b x => if |x - t| < |b - t| then x else b) best := by
        simp [List.foldl_cons, if_neg (not_lt.2 hd)]
      rw [hfold]
      refine ⟨h1, ?_, ?_⟩
      · intro x hx
        rcases List.mem_cons.1 hx with rfl | hx'
        · exact le_trans h1 hd
        · exact h2 x hx'
      · rcases h3 with heq | ⟨k, hk, heq, hlt, hfirst⟩
        · exact Or.inl heq
        · right
          refine ⟨k + 1, by simpa using hk, by simpa using heq, hlt, ?_⟩
          intro j hj hjk
          cases j with
          | zero => simpa using lt_of_lt_of_le hlt hd
          | succ j' =>
            have := hfirst j' (by simpa using hj) (by omega)
            simpa using this

/-- Success invariant of the attempt loop over a contiguous block of attempt
numbers: if the first `k` attempts of the block soft-fail and attempt `k`
succeeds with `d`, the loop returns `d`. -/
theorem fetchAux_range_ok {α : Type} (net : ℕ → AttemptResult α) (label : String) :
    ∀ (n s : ℕ) (lastErr : Option String) (k : ℕ) (d : α), k < n →
      (∀ j, j < k → isSoftFailB (net (s + j)) = true) →
      net (s + k) = AttemptResult.ok d →
      fetchAux net label (List.range' s n) lastErr = Except.ok d := by
  intro n
  induction n with
  | zero => intro s lastErr k d hk; omega
  | succ n ih =>
    intro s lastErr k d hk hsoft hok
    rw [List.range'_succ]
    cases k with
    | zero =>
      simp only [Nat.add_zero] at hok
      simp [fetchAux, hok]
    | succ k' =>
      have hs0 : isSoftFailB (net s) = true := by
        have := hsoft 0 (Nat.succ_pos k')
        simpa using this
      have hrec : ∀ lastErr', fetchAux net label (List.range' (s + 1) n) lastErr'
          = Except.ok d := by
        intro lastErr'
        apply ih (s + 1) lastErr' k' d (by omega)
        · intro j hj
          have := hsoft (j + 1) (by omega)
          have harr : s + (j + 1) = s + 1 + j := by omega
          rwa [harr] at this
        · have harr : s + (k' + 1) = s + 1 + k' := by omega
          rwa [harr] at hok
      cases hnet : net s with
      | ok d' => rw [hnet] at hs0; simp [isSoftFailB] at hs0
      | badStatus => simp only [fetchAux, hnet]; exact hrec _
      | shortBody => simp only [fetchAux, hnet]; exact hrec _
      | badJson => simp only [fetchAux, hnet]; exact hrec _
      | transportError msg => simp only [fetchAux, hnet]; exact hrec _

/-- Exhaustion invariant of the attempt loop: when every attempt soft-fails,
the loop ends in the terminal error carrying the label. -/
theorem fetchAux_allfail {α : Type} (net : ℕ → AttemptResult α) (label : String)
    (hall : ∀ j, isSoftFailB (net j) = true) :
    ∀ (ns : List ℕ) (lastErr : Option String),
      ∃ msg, fetchAux net label ns lastErr = Except.error (label ++ " failed: " ++ msg) := by
  intro ns
  induction ns with
  | nil => intro lastErr; exact ⟨lastErr.getD "All proxies failed", rfl⟩
  | cons n rest ih =>
    intro lastErr
    have hs := hall n
    cases hnet : net n with
    | ok d => rw [hnet] at hs; simp [isSoftFailB] at hs
    | badStatus => simpa only [fetchAux, hnet] using ih lastErr
    | shortBody => simpa only [fetchAux, hnet] using ih lastErr
    | badJson => simpa only [fetchAux, hnet] using ih lastErr
    | transportError msg => simpa only [fetchAux, hnet] using ih (some msg)

/-- Evaluation of the day count for an expiration ten days in the past:
the ceiling is negative, so the floor at 1 applies. -/
theorem daysUntilExpiry_past : daysUntilExpiry 0 864000 = 1 := by
  unfold daysUntilExpiry
  rw [show ((0 : ℚ) - 864000) / 86400 = ((-10 : ℤ) : ℚ) by norm_num, Int.ceil_intCast]
  decide

/- ═══════════ Claim theorems ═══════════ -/

/-- Claim C1: for every contract selected by the analyzer, intrinsic equals
`max 0 (spot - strike)`, extrinsic equals `max 0 (mid - intrinsic)`, both are
non-negative, and the mid price of the underlying raw contract is the
bid/ask midpoint when both are positive, else the last price when present,
else 0. -/
theorem derived_fields_valid (calls : List RawOptionContract) (spot e now : ℚ) (h : ℕ)
    (a : AnalyzedOption) (ha : a ∈ analyzeCallOptions calls spot e now h) :
    0 ≤ a.intrinsic ∧ 0 ≤ a.extrinsic ∧
    a.intrinsic = max 0 (spot - a.strike) ∧
    a.extrinsic = max 0 (a.mid - a.intrinsic) ∧
    ∃ c ∈ calls, a.strike = c.strike ∧
      ((0 < c.bid.getD 0 ∧ 0 < c.ask.getD 0) →
        a.mid = (c.bid.getD 0 + c.ask.getD 0) / 2) ∧
      (¬(0 < c.bid.getD 0 ∧ 0 < c.ask.getD 0) →
        (∀ lp, c.lastPrice = some lp → a.mid = lp) ∧ (c.lastPrice = none → a.mid = 0)) := by
  obtain ⟨c, hc, rfl⟩ := mem_analyzeCallOptions ha
  refine ⟨le_max_left _ _, le_max_left _ _, rfl, rfl, c, hc, rfl, ?_, ?_⟩
  · intro hba
    simp only [deriveOption, if_pos hba]
  · intro hba
    constructor
    · intro lp hlp
      simp only [deriveOption, if_neg hba, hlp, Option.getD_some]
    · intro hnone
      simp only [deriveOption, if_neg hba, hnone, Option.getD_none]

/-- Witness for C1 at the spec scenario (spot 150, strike 160, bid 2.40,
ask 2.60). -/
theorem derived_fields_valid_witness :
    0 ≤ (deriveOption 150 10 1 cex).intrinsic ∧ 0 ≤ (deriveOption 150 10 1 cex).extrinsic ∧
    (deriveOption 150 10 1 cex).intrinsic = max 0 (150 - (deriveOption 150 10 1 cex).strike) ∧
    (deriveOption 150 10 1 cex).extrinsic
      = max 0 ((deriveOption 150 10 1 cex).mid - (deriveOption 150 10 1 cex).intrinsic) ∧
    ∃ c ∈ [cex], (deriveOption 150 10 1 cex).strike = c.strike ∧
      ((0 < c.bid.getD 0 ∧ 0 < c.ask.getD 0) →
        (deriveOption 150 10 1 cex).mid = (c.bid.getD 0 + c.ask.getD 0) / 2) ∧
      (¬(0 < c.bid.getD 0 ∧ 0 < c.ask.getD 0) →
        (∀ lp, c.lastPrice = some lp → (deriveOption 150 10 1 cex).mid = lp) ∧
        (c.lastPrice = none → (deriveOption 150 10 1 cex).mid = 0)) :=
  derived_fields_valid [cex] 150 864000 0 1 (deriveOption 150 10 1 cex)
    (by norm_num [analyzeCallOptions, sortByStrike, findATMIdx, findATMAux, strikeIncrement,
      daysUntilExpiry])

/-- Claim C2: the ranker's output carries exactly the ranks 1..N in order
(no gaps, no duplicates), its underlying options are a permutation of
precisely the rankable subset (extrinsic above 0.01), and every ranked entry
has extrinsic above 0.01. -/
theorem rank_is_dense_over_rankable (options : List AnalyzedOption) :
    (rankByEfficiency options).map RankedOption.rank
      = List.range' 1 (rankByEfficiency options).length ∧
    ((rankByEfficiency options).map RankedOption.opt).Perm
      (options.filter (fun o => decide (o.extrinsic > 0.01))) ∧
    (rankByEfficiency options).length
      = (options.filter (fun o => decide (o.extrinsic > 0.01))).length ∧
    ∀ r ∈ rankByEfficiency options, r.opt.extrinsic > 0.01 := by
  have key : ((rankByEfficiency options).map RankedOption.opt).Perm
      (options.filter (fun o => decide (o.extrinsic > 0.01))) := by
    unfold rankByEfficiency
    by_cases hg : options.any (fun o => o.efficiencyScore.isSome)
    · simp only [hg, if_true, assignRanks_map_opt]
      exact ((List.perm_insertionSort _ _).append (List.perm_insertionSort _ _)).trans
        (List.filter_append_perm scorePos _)
    · simp only [hg, if_false, Bool.false_eq_true, assignRanks_map_opt]
      exact List.perm_insertionSort _ _
  have hlen : (rankByEfficiency options).length
      = (options.filter (fun o => decide (o.extrinsic > 0.01))).length := by
    have := key.length_eq
    rwa [List.length_map] at this
  refine ⟨?_, key, hlen, ?_⟩
  · unfold rankByEfficiency
    by_cases hg : options.any (fun o => o.efficiencyScore.isSome) <;>
      simp only [hg, if_true, if_false, Bool.false_eq_true, assignRanks_map_rank,
        assignRanks_length, Nat.zero_add]
  · intro r hr
    have h1 : r.opt ∈ (rankByEfficiency options).map RankedOption.opt :=
      List.mem_map_of_mem RankedOption.opt hr
    have h2 := key.mem_iff.1 h1
    have h3 := (List.mem_filter.1 h2).2
    exact of_decide_eq_true h3

/-- Witness for C2 on a singleton rankable input: the single entry gets
rank 1 and its extrinsic exceeds 0.01. -/
theorem rank_is_dense_witness :
    (rankByEfficiency [sA]).map RankedOption.rank
      = List.range' 1 (rankByEfficiency [sA]).length ∧
    (⟨sA, 1⟩ : RankedOption).opt.extrinsic > 0.01 :=
  ⟨(rank_is_dense_over_rankable [sA]).1,
   (rank_is_dense_over_rankable [sA]).2.2.2 ⟨sA, 1⟩
     (by norm_num [rankByEfficiency, sortByEffDesc, sortByFallbackDesc, assignRanks,
       scorePos, sA, List.filter])⟩

/-- Claim C3: when at least one rankable contract has a non-null efficiency
score, the ranker returns the scored-then-unscored split ordering; when no
contract at all has an efficiency score, it returns the rankable set sorted
descending by fallback score. -/
theorem rank_mode_selection (options : List AnalyzedOption) :
    ((∃ o ∈ options.filter (fun o => decide (o.extrinsic > 0.01)),
        o.efficiencyScore.isSome = true) →
      rankByEfficiency options = assignRanks
        (sortByEffDesc ((options.filter (fun o => decide (o.extrinsic > 0.01))).filter scorePos) ++
          sortByFallbackDesc ((options.filter (fun o => decide (o.extrinsic > 0.01))).filter
            (fun o => !scorePos o))) 0) ∧
    ((∀ o ∈ options, o.efficiencyScore = none) →
      rankByEfficiency options
        = assignRanks (sortByFallbackDesc (options.filter (fun o => decide (o.extrinsic > 0.01)))) 0) := by
  constructor
  · rintro ⟨o, ho, hs⟩
    have hmem : o ∈ options := (List.mem_filter.1 ho).1
    have hg : options.any (fun o => o.efficiencyScore.isSome) = true :=
      List.any_eq_true.2 ⟨o, hmem, hs⟩
    simp only [rankByEfficiency, hg, if_true]
  · intro hall
    have hg : options.any (fun o => o.efficiencyScore.isSome) = false := by
      rw [List.any_eq_false]
      intro o ho
      simp [hall o ho]
    simp only [rankByEfficiency, hg, Bool.false_eq_true, if_false]

/-- Witness for C3: a scored singleton takes the split branch; a delta-free
singleton takes the fallback branch. -/
theorem rank_mode_selection_witness :
    (rankByEfficiency [sA] = assignRanks
      (sortByEffDesc (([sA].filter (fun o => decide (o.extrinsic > 0.01))).filter scorePos) ++
        sortByFallbackDesc (([sA].filter (fun o => decide (o.extrinsic > 0.01))).filter
          (fun o => !scorePos o))) 0) ∧
    (rankByEfficiency [sB]
      = assignRanks (sortByFallbackDesc ([sB].filter (fun o => decide (o.extrinsic > 0.01)))) 0) :=
  ⟨(rank_mode_selection [sA]).1 ⟨sA, by norm_num [List.mem_filter, sA], rfl⟩,
   (rank_mode_selection [sB]).2 (by simp [sB])⟩

/-- Claim C4: the day count is `max 1 ⌈(expiry - now) / 86400⌉`, hence at
least 1 for every timestamp (past or same-day included), and every analyzed
option's `dte` is that value, so the denominators of `extrinsicPerDTE` and
`annualizedYield` are never zero. -/
theorem dte_at_least_one (calls : List RawOptionContract) (spot e now : ℚ) (h : ℕ) :
    daysUntilExpiry e now = max 1 ⌈(e - now) / 86400⌉ ∧
    1 ≤ daysUntilExpiry e now ∧
    ∀ a ∈ analyzeCallOptions calls spot e now h,
      a.dte = daysUntilExpiry e now ∧ ((a.dte : ℚ) ≠ 0) := by
  refine ⟨rfl, le_max_left _ _, ?_⟩
  intro a ha
  unfold analyzeCallOptions at ha
  simp only [List.mem_map] at ha
  obtain ⟨c, _, rfl⟩ := ha
  refine ⟨rfl, ?_⟩
  have h1 : 1 ≤ daysUntilExpiry e now := le_max_left _ _
  show ((daysUntilExpiry e now : ℤ) : ℚ) ≠ 0
  exact_mod_cast (by omega : daysUntilExpiry e now ≠ 0)

/-- Witness for C4: an expiration ten days in the past still yields a day
count of 1 and a non-zero denominator. -/
theorem dte_witness :
    1 ≤ daysUntilExpiry 0 864000 ∧
    ((deriveOption 150 1 1 cex).dte = daysUntilExpiry 0 864000 ∧
      (((deriveOption 150 1 1 cex).dte : ℚ) ≠ 0)) :=
  ⟨(dte_at_least_one [cex] 150 0 864000 1).2.1,
   (dte_at_least_one [cex] 150 0 864000 1).2.2 (deriveOption 150 1 1 cex)
     (by norm_num [analyzeCallOptions, sortByStrike, findATMIdx, findATMAux, strikeIncrement,
        daysUntilExpiry_past])⟩

/-- Counterexample for C5: the claim says implied volatility is passed
through as null when absent and never coerced to 0, but for a contract whose
feed omits `impliedVolatility` the analyzer reports 0 — the very same output
as for a contract whose feed reports an implied volatility of exactly 0, so
absence is defaulted to zero and is not representable in the output. -/
theorem greeks_passthrough_counterexample :
    cex.impliedVolatility = none ∧
    (deriveOption 150 10 1 cex).impliedVol = 0 ∧
    deriveOption 150 10 1 cex = deriveOption 150 10 1 cexIV0 :=
  ⟨rfl, rfl, rfl⟩

/-- Amended C5: the five Greeks (delta, gamma, theta, vega, rho) are passed
through as-is when the source supplies a numeric value and are null when
absent; implied volatility, however, is coerced with `|| 0`, so an absent
implied volatility is reported as 0. -/
theorem greeks_passthrough_amended (calls : List RawOptionContract) (spot e now : ℚ) (h : ℕ)
    (a : AnalyzedOption) (ha : a ∈ analyzeCallOptions calls spot e now h) :
    ∃ c ∈ calls, a.delta = c.delta ∧ a.gamma = c.gamma ∧ a.theta = c.theta ∧
      a.vega = c.vega ∧ a.rho = c.rho ∧ a.impliedVol = c.impliedVolatility.getD 0 := by
  obtain ⟨c, hc, rfl⟩ := mem_analyzeCallOptions ha
  exact ⟨c, hc, rfl, rfl, rfl, rfl, rfl, rfl⟩

/-- Witness for the amended C5 on a contract that reports delta and gamma. -/
theorem greeks_passthrough_witness :
    ∃ c ∈ [cgx], (deriveOption 150 10 1 cgx).delta = c.delta ∧
      (deriveOption 150 10 1 cgx).gamma = c.gamma ∧
      (deriveOption 150 10 1 cgx).theta = c.theta ∧
      (deriveOption 150 10 1 cgx).vega = c.vega ∧
      (deriveOption 150 10 1 cgx).rho = c.rho ∧
      (deriveOption 150 10 1 cgx).impliedVol = c.impliedVolatility.getD 0 :=
  greeks_passthrough_amended [cgx] 150 864000 0 1 (deriveOption 150 10 1 cgx)
    (by norm_num [analyzeCallOptions, sortByStrike, findATMIdx, findATMAux, strikeIncrement,
      daysUntilExpiry])

/-- Claim C6: the analyzer returns the map of the per-contract derivation
over the contiguous window of the strike-sorted list clipped to the
available range, its output length is at most `2 * numStrikes + 1`, the
sorted list is ascending by strike, and for non-empty input the at-the-money
index is the first index of minimal strike distance to spot. -/
theorem window_selection (calls : List RawOptionContract) (spot e now : ℚ) (h : ℕ) :
    analyzeCallOptions calls spot e now h
      = (((sortByStrike calls).drop (findATMIdx (sortByStrike calls) spot - h)).take
          (min (sortByStrike calls).length (findATMIdx (sortByStrike calls) spot + h + 1)
            - (findATMIdx (sortByStrike calls) spot - h))).map
          (deriveOption spot (daysUntilExpiry e now)
            (strikeIncrement (sortByStrike calls) (findATMIdx (sortByStrike calls) spot))) ∧
    (analyzeCallOptions calls spot e now h).length ≤ 2 * h + 1 ∧
    (sortByStrike calls).Pairwise (fun a b => a.strike ≤ b.strike) ∧
    (calls ≠ [] →
      IsFirstATM (sortByStrike calls) spot (findATMIdx (sortByStrike calls) spot)) := by
  refine ⟨rfl, ?_, ?_, ?_⟩
  · simp only [analyzeCallOptions, List.length_map, List.length_take, List.length_drop]
    omega
  · haveI : IsTotal RawOptionContract (fun a b => a.strike ≤ b.strike) :=
      ⟨fun a b => le_total a.strike b.strike⟩
    haveI : IsTrans RawOptionContract (fun a b => a.strike ≤ b.strike) :=
      ⟨fun _ _ _ hab hbc => le_trans hab hbc⟩
    exact List.sorted_insertionSort _ calls
  · intro hne
    apply findATMIdx_isFirstATM
    intro hnil
    have := congrArg List.length hnil
    rw [show sortByStrike calls = List.insertionSort (fun a b => a.strike ≤ b.strike) calls from rfl,
      (List.perm_insertionSort (fun a b => a.strike ≤ b.strike) calls).length_eq] at this
    exact hne (List.length_eq_zero.1 this)

/-- Witness for C6 at the spec scenario (strikes 100, 105, 110, spot 105,
window 1): bound holds, the at-the-money property holds, and indeed all
three contracts are selected. -/
theorem window_selection_witness :
    (analyzeCallOptions [c100, c105, c110] 105 864000 0 1).length ≤ 2 * 1 + 1 ∧
    IsFirstATM (sortByStrike [c100, c105, c110]) 105
      (findATMIdx (sortByStrike [c100, c105, c110]) 105) ∧
    (analyzeCallOptions [c100, c105, c110] 105 864000 0 1).length = 3 :=
  ⟨(window_selection [c100, c105, c110] 105 864000 0 1).2.1,
   (window_selection [c100, c105, c110] 105 864000 0 1).2.2.2 (List.cons_ne_nil _ _),
   by norm_num [analyzeCallOptions, sortByStrike, findATMIdx, findATMAux, strikeIncrement,
     daysUntilExpiry, c100, c105, c110, cex]⟩

/-- Claim C7: on a non-empty list of available expirations the matcher
returns a member of minimal absolute distance to the target anchor, and that
member sits at the first index attaining the minimum (earlier elements are
strictly farther). -/
theorem closest_expiry_spec (available : List ℚ) (target : ℚ) (hne : available ≠ []) :
    ∃ r, findClosestExpiry available target = some r ∧ r ∈ available ∧
      (∀ x ∈ available, |r - target| ≤ |x - target|) ∧
      ∃ k, ∃ hk : k < available.length, r = available.get ⟨k, hk⟩ ∧
        ∀ j (hj : j < available.length), j < k →
          |r - target| < |available.get ⟨j, hj⟩ - target| := by
  match available, hne with
  | a0 :: rest, _ =>
    have hstep : findClosestExpiry (a0 :: rest) target
        = some (rest.foldl (fun b ts => if |ts - target| < |b - target| then ts else b) a0) := by
      simp [findClosestExpiry, List.foldl_cons]
    obtain ⟨h1, h2, h3⟩ := foldClosest_spec target rest a0
    set r := rest.foldl (fun b ts => if |ts - target| < |b - target| then ts else b) a0 with hr
    refine ⟨r, hstep, ?_, ?_, ?_⟩
    · rcases h3 with heq | ⟨k, hk, heq, _, _⟩
      · rw [heq]; exact List.mem_cons_self _ _
      · rw [heq]; exact List.mem_cons_of_mem _ (List.get_mem _ _ _)
    · intro x hx
      rcases List.mem_cons.1 hx with rfl | hx'
      · exact h1
      · exact h2 x hx'
    · rcases h3 with heq | ⟨k, hk, heq, hlt, hfirst⟩
      · exact ⟨0, by simp, by simpa using heq, fun j hj hj0 => by omega⟩
      · refine ⟨k + 1, by simpa using hk, by simpa using heq, ?_⟩
        intro j hj hjk
        cases j with
        | zero => simpa using hlt
        | succ j' =>
          have := hfirst j' (by simpa using hj) (by omega)
          simpa using this

/-- Witness for C7: a target exactly between expirations 10 and 20 returns
the earlier one. -/
theorem closest_expiry_witness :
    findClosestExpiry [10, 20] 15 = some 10 ∧
    ∃ r, findClosestExpiry [10, 20] 15 = some r ∧ r ∈ [(10 : ℚ), 20] ∧
      (∀ x ∈ [(10 : ℚ), 20], |r - 15| ≤ |x - 15|) ∧
      ∃ k, ∃ hk : k < ([(10 : ℚ), 20]).length, r = ([(10 : ℚ), 20]).get ⟨k, hk⟩ ∧
        ∀ j (hj : j < ([(10 : ℚ), 20]).length), j < k →
          |r - 15| < |([(10 : ℚ), 20]).get ⟨j, hj⟩ - 15| :=
  ⟨by norm_num [findClosestExpiry],
   closest_expiry_spec [10, 20] 15 (List.cons_ne_nil _ _)⟩

/-- Claim C8: within the attempt budget, if the first `k` relay attempts
each soft-fail and attempt `k` succeeds, the fetch returns that first
success's parsed body; and if every attempt soft-fails, the fetch ends in a
single terminal error whose message carries the configured label. -/
theorem relay_fetch_spec {α : Type} (net : ℕ → AttemptResult α) (label : String)
    (maxAttempts : ℕ) :
    (∀ k d, k < maxAttempts * proxyCount →
      (∀ j, j < k → isSoftFailB (net j) = true) →
      net k = AttemptResult.ok d →
      fetchWithProxies net label maxAttempts = Except.ok d) ∧
    ((∀ j, isSoftFailB (net j) = true) →
      ∃ msg, fetchWithProxies net label maxAttempts
        = Except.error (label ++ " failed: " ++ msg)) := by
  constructor
  · intro k d hk hsoft hok
    unfold fetchWithProxies
    rw [List.range_eq_range']
    exact fetchAux_range_ok net label (maxAttempts * proxyCount) 0 none k d hk
      (by simpa using hsoft) (by simpa using hok)
  · intro hall
    exact fetchAux_allfail net label hall _ _

/-- Witness for C8: one soft failure then a success yields that success;
all-failing relays yield the labelled terminal error. -/
theorem relay_fetch_witness :
    fetchWithProxies netOneFail "Fetching AAPL options chain" 3 = Except.ok 42 ∧
    ∃ msg, fetchWithProxies netAllFail "Fetching AAPL options chain" 3
      = Except.error ("Fetching AAPL options chain failed: " ++ msg) :=
  ⟨(relay_fetch_spec netOneFail "Fetching AAPL options chain" 3).1 1 42 (by decide)
      (fun j hj => by have hj0 : j = 0 := by omega
                      subst hj0
                      rfl) rfl,
    (relay_fetch_spec netAllFail "Fetching AAPL options chain" 3).2 (fun j => rfl)⟩

/-- Claim C9: when the metadata price is absent or exactly 0 (falsy), the
spot fetch takes the close-series fallback: a successful result is the last
non-null close, and when the fallback yields nothing the operation fails
with the extraction error. -/
theorem spot_never_zero_from_meta (r : ChartResult) (ticker : String)
    (hfalsy : r.regularMarketPrice = none ∨ r.regularMarketPrice = some 0) :
    fetchSpotPrice (some r) ticker = spotFallback r ticker ∧
    (∀ q name, fetchSpotPrice (some r) ticker = Except.ok (q, name) →
      (validCloses r).getLast? = some q ∧ name = ticker) ∧
    (validCloses r = [] →
      fetchSpotPrice (some r) ticker
        = Except.error ("Could not extract price for " ++ ticker)) := by
  have hfb : fetchSpotPrice (some r) ticker = spotFallback r ticker := by
    rcases hfalsy with hnone | hzero
    · simp [fetchSpotPrice, hnone]
    · simp [fetchSpotPrice, hzero]
  refine ⟨hfb, ?_, ?_⟩
  · intro q name hok
    rw [hfb] at hok
    unfold spotFallback at hok
    cases hc : closesOf r with
    | none => simp only [hc] at hok; exact absurd hok (by simp)
    | some closes =>
      simp only [hc] at hok
      cases hl : (closes.filterMap id).getLast? with
      | none => simp only [hl] at hok; exact absurd hok (by simp)
      | some v =>
        simp only [hl] at hok
        simp only [Except.ok.injEq, Prod.mk.injEq] at hok
        obtain ⟨hq, hname⟩ := hok
        constructor
        · rw [validCloses, hc]
          simp only [Option.getD_some]
          rw [hl, hq]
        · exact hname.symm
  · intro hempty
    rw [hfb]
    unfold spotFallback
    cases hc : closesOf r with
    | none => simp [hc]
    | some closes =>
      have hnil : closes.filterMap id = [] := by
        rw [validCloses, hc] at hempty
        simpa using hempty
      simp [hc, hnil]

/-- Witness for C9 on a response whose metadata price is exactly 0 and whose
close series ends in 123. -/
theorem spot_never_zero_witness :
    fetchSpotPrice (some chartEx) "AAPL" = spotFallback chartEx "AAPL" ∧
    (∀ q name, fetchSpotPrice (some chartEx) "AAPL" = Except.ok (q, name) →
      (validCloses chartEx).getLast? = some q ∧ name = "AAPL") ∧
    (validCloses chartEx = [] →
      fetchSpotPrice (some chartEx) "AAPL"
        = Except.error ("Could not extract price for " ++ "AAPL")) :=
  spot_never_zero_from_meta chartEx "AAPL" (Or.inr rfl)

/-- Claim C10: the analyzer applied to an empty contract list returns the
empty list without error, and the at-the-money index defaults to 0. -/
theorem analyze_empty (spot e now : ℚ) (h : ℕ) :
    analyzeCallOptions [] spot e now h = [] ∧ findATMIdx (sortByStrike []) spot = 0 := by
  constructor
  · have hs : sortByStrike [] = ([] : List RawOptionContract) := rfl
    have hi : findATMIdx (sortByStrike []) spot = 0 := rfl
    simp [analyzeCallOptions, hs, hi]
  · rfl

end OptionsApp
